import Mathlib

/-!
Verification of the contextual-bandit policy in
src/experiments/classification/policies/statistical.py
(repository rjagerman/tois2019-safe-exploration-algorithm).

The Python class maintains, per arm, the sufficient statistics of an online
ridge regression (A, A_inv, b, w), a cached Cholesky factor of A_inv with a
per-arm dirty flag, and dispatches action selection on a draw_type
discriminant (0 = UCB, 1 = Thompson).

The embedding works at two levels.

First, a shape-faithful model of the numpy code: arrays are rational-valued
nested lists carrying their actual lengths, and every numpy operation checks
the same dimension constraints numpy checks, failing with an explicit error
value (NPError) where numpy raises.  Rational arithmetic stands for the
float arithmetic of the source; all claims settled on this model are about
control flow, shapes, caching and state, none about rounding.  External
effects are passed in as parameters: the square root used by the UCB bound
(sq), the Cholesky factorization (ch), and the standard-normal sample drawn
inside the Thompson branch (u).

Second, an exact-arithmetic per-arm model of the Sherman-Morrison update
(lines 42-46 of the source) over Mathlib matrices, used for the algebraic
equivalence claim.
-/

namespace SPol

/-- Error outcomes of the numpy operations used by the source: shape
mismatches (numpy ValueError), out-of-range indexing (numpy IndexError), and
the explicit ValueError raised by the source on an unknown draw type. -/
inductive NPError where
  | shape : NPError
  | index : NPError
  | unknownDrawType : NPError
deriving DecidableEq, Repr

/-- Dense 1-D array of rationals. -/
abbrev Vec := List ℚ

/-- Dense 2-D array of rationals (list of rows). -/
abbrev Mat := List (List ℚ)

/-- Sum of products of already-aligned lists (the arithmetic core of a dot
product; length agreement is checked by the callers below). -/
def dot0 (u v : Vec) : ℚ := (List.zip u v).foldl (fun s p => s + p.1 * p.2) 0

/-- Model of numpy 1-D dot: requires equal lengths. -/
def dotL (u v : Vec) : Except NPError ℚ :=
  if u.length = v.length then .ok (dot0 u v) else .error .shape

/-- Number of columns of a 2-D array (length of its first row). -/
def nCols (m : Mat) : Nat := (m.headD []).length

/-- Column j of a 2-D array. -/
def getCol (m : Mat) (j : Nat) : Vec := m.map (fun r => r.getD j 0)

/-- Model of numpy 2-D @ 2-D matrix multiplication: the inner dimensions
must agree. -/
def matMul (a b : Mat) : Except NPError Mat :=
  if a.all (fun r => r.length = b.length) then
    .ok (a.map (fun r => (List.range (nCols b)).map (fun j => dot0 r (getCol b j))))
  else .error .shape

/-- Model of numpy dot(matrix, vector): contracts the rows of m with v. -/
def dotMV (m : Mat) (v : Vec) : Except NPError Vec :=
  if m.all (fun r => r.length = v.length) then
    .ok (m.map (fun r => dot0 r v))
  else .error .shape

/-- Model of numpy dot(vector, matrix): contracts v with the columns of m. -/
def dotVM (v : Vec) (m : Mat) : Except NPError Vec :=
  if v.length = m.length then
    .ok ((List.range (nCols m)).map (fun j => dot0 v (getCol m j)))
  else .error .shape

/-- Model of numpy 1-D + 1-D addition with broadcasting: equal lengths add
elementwise, a length-one operand broadcasts, anything else is an error. -/
def vecAddB (u v : Vec) : Except NPError Vec :=
  if u.length = v.length then .ok (List.zipWith (fun a b => a + b) u v)
  else if u.length = 1 then .ok (v.map (fun y => u.headD 0 + y))
  else if v.length = 1 then .ok (u.map (fun y => y + v.headD 0))
  else .error .shape

/-- Shape equality of 2-D arrays. -/
def sameShape (a b : Mat) : Prop :=
  a.length = b.length ∧ (List.zip a b).all (fun p => p.1.length = p.2.length)

instance (a b : Mat) : Decidable (sameShape a b) := by
  unfold sameShape; infer_instance

/-- Model of numpy 2-D + 2-D addition at equal shapes (the only form the
source exercises on matrices). -/
def matAddE (a b : Mat) : Except NPError Mat :=
  if sameShape a b then
    .ok (List.zipWith (fun r s => List.zipWith (fun x y => x + y) r s) a b)
  else .error .shape

/-- Model of numpy 2-D - 2-D subtraction at equal shapes. -/
def matSubE (a b : Mat) : Except NPError Mat :=
  if sameShape a b then
    .ok (List.zipWith (fun r s => List.zipWith (fun x y => x - y) r s) a b)
  else .error .shape

/-- Model of numpy matrix + python scalar (broadcast). -/
def matAddS (m : Mat) (c : ℚ) : Mat := m.map (fun r => r.map (fun x => x + c))

/-- Model of numpy elementwise division num / den where den is a 1 x 1
array, as produced on line 45 of the source (numpy broadcasts the single
entry); equal shapes divide elementwise.  Rational division is total, so
the division-by-zero behavior of floats (inf/nan) is outside this model;
no claim depends on it. -/
def matDivB (num den : Mat) : Except NPError Mat :=
  if den.length = 1 ∧ nCols den = 1 then
    .ok (num.map (fun r => r.map (fun x => x / ((den.headD []).headD 0))))
  else if sameShape num den then
    .ok (List.zipWith (fun r s => List.zipWith (fun x y => x / y) r s) num den)
  else .error .shape

/-- Scalar times vector. -/
def scalVec (c : ℚ) (v : Vec) : Vec := v.map (fun x => c * x)

/-- Reshape of a 1-D array of length n into an n x 1 column (x2 in the
source). -/
def colOf (x : Vec) : Mat := x.map (fun v => [v])

/-- The 1 x n transpose of that column (x2.T in the source). -/
def rowOf (x : Vec) : Mat := [x]

/-- Model of numpy diag on a 2-D array: its main diagonal. -/
def diagE (m : Mat) : Vec :=
  (List.range (min m.length (nCols m))).map (fun i => (m.getD i []).getD i 0)

/-- Bounds-checked read, numpy-style (IndexError when out of range). -/
def getIdx (l : List α) (i : Nat) : Except NPError α :=
  match l[i]? with
  | some v => .ok v
  | none => .error .index

/-- Bounds-checked write, numpy-style. -/
def setIdx (l : List α) (i : Nat) (v : α) : Except NPError (List α) :=
  if i < l.length then .ok (l.set i v) else .error .index

/-- Model of numpy row-slice assignment w[a, :] = new: the value must have
the length of the slice, or be a single element, which broadcasts. -/
def assignRow (old new : Vec) : Except NPError Vec :=
  if new.length = old.length then .ok new
  else if new.length = 1 then .ok (List.replicate old.length (new.headD 0))
  else .error .shape

/-- Effectful map over a list in left-to-right order, stopping at the first
error: the order in which the python for-loops of the source visit the arms. -/
def mapE (f : α → Except NPError β) : List α → Except NPError (List β)
  | [] => .ok []
  | a :: l => do
      let b ← f a
      let bs ← mapE f l
      pure (b :: bs)

/-- Effectful fold over a list in left-to-right order, stopping at the
first error. -/
def foldE (f : σ → α → Except NPError σ) (s : σ) : List α → Except NPError σ
  | [] => .ok s
  | a :: l => do
      let s1 ← f s a
      foldE f s1 l

/-- Modelled from the spec: the argmax helper is imported from
experiments.classification.policies.util, which is not among the sources;
the spec prescribes a deterministic tie-break, lowest index wins, matching
numpy argmax.  Recursion state: remaining entries, index of the next entry,
best index so far, best value so far. -/
def argmaxAux : List ℚ → Nat → Nat → ℚ → Nat
  | [], _, bi, _ => bi
  | v :: rest, ci, bi, bv =>
      if bv < v then argmaxAux rest (ci + 1) ci v else argmaxAux rest (ci + 1) bi bv

/-- Modelled from the spec: index of the largest entry, lowest index on
ties (empty input yields 0; the source never applies argmax to an empty
score vector for k at least 1). -/
def argmax : List ℚ → Nat
  | [] => 0
  | v :: rest => argmaxAux rest 1 0 v

/-- TYPE_UCB constant of the source. -/
def TYPE_UCB : Int := 0

/-- TYPE_THOMPSON constant of the source. -/
def TYPE_THOMPSON : Int := 1

/-- State of the jitclass _StatisticalPolicy: exactly the fields of its
numba spec, in declaration order.  The field tau is declared in the spec
and read by the serialization hook but never assigned by the constructor. -/
structure Policy where
  k : Nat
  d : Nat
  l2 : ℚ
  alpha : ℚ
  tau : ℚ
  w : Mat
  b : Mat
  A : List Mat
  A_inv : List Mat
  cho : List Mat
  recompute : List Bool
  draw_type : Int
deriving DecidableEq, Repr

/-- Identity matrix of size d as a nested list. -/
def identityM (d : Nat) : Mat :=
  (List.range d).map (fun i => (List.range d).map (fun j => if i = j then (1 : ℚ) else 0))

/-- Zero matrix with r rows and c columns. -/
def zerosM (r c : Nat) : Mat := List.replicate r (List.replicate c (0 : ℚ))

/-- Matrix scaled by a rational (identity * l2 in the source). -/
def scalMulM (c : ℚ) (m : Mat) : Mat := m.map (fun r => r.map (fun x => x * c))

/-- Matrix divided elementwise by a rational (identity / l2 in the source). -/
def matDivS (m : Mat) (c : ℚ) : Mat := m.map (fun r => r.map (fun x => x / c))

/-- The StatisticalPolicy factory (lines 149-162) with the default buffers:
w and b are allocated as d x k zero arrays, A as k copies of identity * l2,
A_inv as k copies of identity / l2, cho as k zero d x d matrices, and
recompute as k False flags (np.zeros of dtype bool).  The claims under
verification construct policies without pre-existing state, so the optional
buffer arguments are fixed at their defaults here.  The source constructor
leaves tau uninitialized; 0 stands for its indeterminate initial contents
(no claim depends on its value). -/
def StatisticalPolicy (k d : Nat) (l2 alpha : ℚ) (draw_type : Int) : Policy :=
  { k := k
    d := d
    l2 := l2
    alpha := alpha
    tau := 0
    w := zerosM d k
    b := zerosM d k
    A := List.replicate k (scalMulM l2 (identityM d))
    A_inv := List.replicate k (matDivS (identityM d) l2)
    cho := List.replicate k (zerosM d d)
    recompute := List.replicate k false
    draw_type := draw_type }

/-- Lines 39-48 of the source, the update method.  The context x arrives
already densified (x.to_dense()).  Each numpy step is performed with its
shape and bounds checks, in source order: accumulate A[a], accumulate b[a],
Sherman-Morrison update of A_inv[a], recompute w[a] from the new A_inv[a]
and b[a], set the dirty flag. -/
def update (st : Policy) (x : Vec) (a : Nat) (r : ℚ) : Except NPError Policy := do
  let xd := x
  let x2 := colOf xd
  let Aa ← getIdx st.A a
  let outerX ← matMul x2 (rowOf xd)
  let Aa2 ← matAddE Aa outerX
  let newA ← setIdx st.A a Aa2
  let ba ← getIdx st.b a
  let ba2 ← vecAddB ba (xd.map (fun v => v * r))
  let ba3 ← assignRow ba ba2
  let newB ← setIdx st.b a ba3
  let Ia ← getIdx st.A_inv a
  let t1 ← matMul Ia x2
  let t2 ← matMul t1 (rowOf xd)
  let num ← matMul t2 Ia
  let t3 ← matMul (rowOf xd) Ia
  let t4 ← matMul t3 x2
  let den := matAddS t4 1
  let frac ← matDivB num den
  let Ia2 ← matSubE Ia frac
  let newAinv ← setIdx st.A_inv a Ia2
  let wa ← getIdx st.w a
  let wa2 ← dotMV Ia2 ba3
  let wa3 ← assignRow wa wa2
  let newW ← setIdx st.w a wa3
  let newRec ← setIdx st.recompute a true
  pure { st with A := newA, b := newB, A_inv := newAinv, w := newW, recompute := newRec }

/-- Lines 59-64 of the source, the _bound method: for each arm i the scalar
sqrt(x^T A_inv[i] x), computed through the same reshape, matrix products,
diag extraction and sqrt-then-index chain as the source.  The square root
of the floats is abstracted by the parameter sq. -/
def bound (st : Policy) (x : Vec) (sq : ℚ → ℚ) : Except NPError Vec :=
  mapE (fun i => do
    let Ii ← getIdx st.A_inv i
    let m1 ← matMul (rowOf x) Ii
    let m2 ← matMul m1 (colOf x)
    getIdx ((diagE m2).map sq) 0) (List.range st.k)

/-- One iteration of the _update_cholesky loop (lines 66-70) at arm i:
when the dirty flag is set, store ch(A_inv[i]) in cho[i] and clear the
flag.  The Cholesky factorization of the floats is abstracted by the
parameter ch. -/
def cholStep (ch : Mat → Mat) (s : Policy) (i : Nat) : Except NPError Policy := do
  let rc ← getIdx s.recompute i
  if rc then do
    let Ii ← getIdx s.A_inv i
    let newCho ← setIdx s.cho i (ch Ii)
    let newRec ← setIdx s.recompute i false
    pure { s with cho := newCho, recompute := newRec }
  else pure s

/-- Lines 66-70 of the source, the _update_cholesky method: the loop over
all arms. -/
def update_cholesky (ch : Mat → Mat) (st : Policy) : Except NPError Policy :=
  foldE (cholStep ch) st (List.range st.k)

/-- Lines 72-73 of the source, the _draw_ucb method: argmax over
dot(w, x) + alpha * bound(x). -/
def draw_ucb (st : Policy) (x : Vec) (sq : ℚ → ℚ) : Except NPError Nat := do
  let s1 ← dotMV st.w x
  let bnd ← bound st x sq
  let scores ← vecAddB s1 (scalVec st.alpha bnd)
  pure (argmax scores)

/-- Lines 75-81 of the source, the _draw_thompson method: refresh the
Cholesky cache, then for each arm score the posterior sample
w[i] + cho[i] @ u[i] against x and take the argmax.  The standard-normal
matrix u (drawn by the source with the shape of w) is supplied as a
parameter; the refreshed state is returned alongside the action because
the cache refresh mutates the policy. -/
def draw_thompson (st : Policy) (x : Vec) (ch : Mat → Mat) (u : Mat) :
    Except NPError (Nat × Policy) := do
  let st1 ← update_cholesky ch st
  let s ← mapE (fun i => do
    let wi ← getIdx st1.w i
    let ci ← getIdx st1.cho i
    let ui ← getIdx u i
    let cu ← dotMV ci ui
    let t ← vecAddB wi cu
    dotL t x) (List.range st1.k)
  pure (argmax s, st1)

/-- Lines 50-57 of the source, the draw method: dispatch on draw_type,
raising on an unrecognized discriminant.  The pair returned carries the
(possibly cache-refreshed) policy state. -/
def draw (st : Policy) (x : Vec) (sq : ℚ → ℚ) (ch : Mat → Mat) (u : Mat) :
    Except NPError (Nat × Policy) :=
  if st.draw_type = TYPE_UCB then do
    let i ← draw_ucb st x sq
    pure (i, st)
  else if st.draw_type = TYPE_THOMPSON then
    draw_thompson st x ch u
  else .error .unknownDrawType

/-- Lines 95-99 of the source, the _probability_ucb method: 1.0 when
_draw_ucb picks a, else 0.0. -/
def probability_ucb (st : Policy) (x : Vec) (a : Nat) (sq : ℚ → ℚ) : Except NPError ℚ := do
  let i ← draw_ucb st x sq
  pure (if i = a then (1 : ℚ) else 0)

/-- Lines 101-103 of the source, the _probability_thompson method: it
refreshes the Cholesky cache, evaluates dot(x, w) + _bound(x), discards
that value, and falls off the end of the function body, producing Python
None rather than a number.  The first component of the result is therefore
always none. -/
def probability_thompson (st : Policy) (x : Vec) (sq : ℚ → ℚ) (ch : Mat → Mat) :
    Except NPError (Option ℚ × Policy) := do
  let st1 ← update_cholesky ch st
  let s1 ← dotVM x st1.w
  let bnd ← bound st1 x sq
  let _discarded ← vecAddB s1 bnd
  pure (none, st1)

/-- Lines 86-93 of the source, the probability method: dispatch on
draw_type, raising on an unrecognized discriminant.  The UCB branch
returns a number; the Thompson branch returns none (see
probability_thompson).  The pair carries the possibly-refreshed state. -/
def probability (st : Policy) (x : Vec) (a : Nat) (sq : ℚ → ℚ) (ch : Mat → Mat) :
    Except NPError (Option ℚ × Policy) :=
  if st.draw_type = TYPE_UCB then do
    let v ← probability_ucb st x a sq
    pure (some v, st)
  else if st.draw_type = TYPE_THOMPSON then
    probability_thompson st x sq ch
  else .error .unknownDrawType

/-- Total probability mass the UCB branch assigns to the actions 0..k-1 at
a fixed context: the sum of _probability_ucb over all arms, the quantity
the spec requires to be exactly 1. -/
def ucbProbSum (st : Policy) (x : Vec) (sq : ℚ → ℚ) : Except NPError ℚ := do
  let vs ← mapE (fun a => probability_ucb st x a sq) (List.range st.k)
  pure vs.sum

/-- The dictionary built by the __getstate hook (lines 106-120): one entry
per field of the jitclass spec. -/
structure StateDict where
  k : Nat
  d : Nat
  l2 : ℚ
  alpha : ℚ
  tau : ℚ
  w : Mat
  b : Mat
  A : List Mat
  A_inv : List Mat
  cho : List Mat
  recompute : List Bool
  draw_type : Int
deriving DecidableEq, Repr

/-- Lines 106-120 of the source, the __getstate hook: snapshot every field. -/
def getstate (p : Policy) : StateDict :=
  { k := p.k, d := p.d, l2 := p.l2, alpha := p.alpha, tau := p.tau,
    w := p.w, b := p.b, A := p.A, A_inv := p.A_inv, cho := p.cho,
    recompute := p.recompute, draw_type := p.draw_type }

/-- Lines 123-135 of the source, the __setstate hook: overwrite every field
of the receiving instance from the dictionary. -/
def setstate (_p : Policy) (s : StateDict) : Policy :=
  { k := s.k, d := s.d, l2 := s.l2, alpha := s.alpha, tau := s.tau,
    w := s.w, b := s.b, A := s.A, A_inv := s.A_inv, cho := s.cho,
    recompute := s.recompute, draw_type := s.draw_type }

/-- Lines 138-139 of the source, the __reduce hook used by pickling:
rebuild with StatisticalPolicy(k, d) at the default l2, alpha and
draw_type, then apply __setstate with the snapshot. -/
def restoreViaReduce (s : StateDict) : Policy :=
  setstate (StatisticalPolicy s.k s.d 1 1 TYPE_UCB) s

/-- Fields of the policy state never touched by draw or probability: all
sufficient statistics and all scalar configuration.  Only the Cholesky
cache pair (cho, recompute) is outside this list. -/
def FramePreserved (s t : Policy) : Prop :=
  t.k = s.k ∧ t.d = s.d ∧ t.l2 = s.l2 ∧ t.alpha = s.alpha ∧ t.tau = s.tau ∧
  t.w = s.w ∧ t.b = s.b ∧ t.A = s.A ∧ t.A_inv = s.A_inv ∧ t.draw_type = s.draw_type

section ShermanMorrisonExact

open Matrix

variable {n : Type} [Fintype n] [DecidableEq n]

/-- Line 42 of the source for one arm, in exact arithmetic: the rank-1
accumulation A := A + x x^T. -/
def smUpdateA (A : Matrix n n ℚ) (x : n → ℚ) : Matrix n n ℚ :=
  A + vecMulVec x x

/-- Lines 44-46 of the source for one arm, in exact arithmetic: the
Sherman-Morrison update
B := B - (B x x^T B) / (x^T B x + 1) of the maintained inverse. -/
def smUpdateAinv (B : Matrix n n ℚ) (x : n → ℚ) : Matrix n n ℚ :=
  B - (1 / (x ⬝ᵥ B.mulVec x + 1)) • (B * vecMulVec x x * B)

/-- The pair (A[a], A_inv[a]) after a sequence of updates to one arm,
starting from the constructor values identity * l2 and identity / l2
(lines 153-154) and folding lines 42-46 over the observed contexts. -/
def smRun (l2 : ℚ) (xs : List (n → ℚ)) : Matrix n n ℚ × Matrix n n ℚ :=
  xs.foldl (fun p x => (smUpdateA p.1 x, smUpdateAinv p.2 x)) (l2 • 1, l2⁻¹ • 1)

/-- Positive definiteness over the rationals, stated directly. -/
def PDQ (A : Matrix n n ℚ) : Prop :=
  ∀ v : n → ℚ, v ≠ 0 → 0 < v ⬝ᵥ A.mulVec v

end ShermanMorrisonExact

end SPol

namespace SPol

/-! Helper lemmas about the Except monad and the list primitives. -/

@[simp] theorem ok_bind (a : α) (f : α → Except NPError β) :
    (Except.ok a >>= f) = f a := rfl

@[simp] theorem error_bind (e : NPError) (f : α → Except NPError β) :
    ((Except.error e : Except NPError α) >>= f) = .error e := rfl

@[simp] theorem pure_eq_ok (a : α) : (pure a : Except NPError α) = .ok a := rfl

theorem bindE_ok {e : Except NPError α} {f : α → Except NPError β} {b : β} :
    (e >>= f) = .ok b ↔ ∃ a, e = .ok a ∧ f a = .ok b := by
  cases e <;> simp

/-! C10, serialization round trip. -/

/-- C10: for every policy state, snapshotting through the __getstate hook
and restoring through the __setstate hook (onto any carrier instance, in
particular onto the fresh StatisticalPolicy(k, d) that __reduce builds)
reproduces every field of the original state exactly, in particular the
listed w, b, A, A_inv, cho, recompute, draw_type, k, d, l2 and alpha. -/
theorem serialization_round_trip (p q : Policy) :
    setstate q (getstate p) = p ∧ restoreViaReduce (getstate p) = p := by
  exact ⟨rfl, rfl⟩

/-! C6, initialization invariant. -/

/-- C6 counterexample: immediately after construction the dirty flag of arm
0 is False, not True as the claim states; np.zeros of dtype bool (line 156)
clears every flag. -/
theorem initial_recompute_false_cex :
    (StatisticalPolicy 1 1 1 1 0).recompute[0]? = some false ∧
    (some false : Option Bool) ≠ some true := by
  exact ⟨rfl, by simp⟩

/-- C6 (amended): immediately after construction with no pre-existing state,
for every arm a and indices i, j below the dimension, A[a] is l2 times the
identity, A_inv[a] is the identity divided by l2, b and w are all zeros,
cho[a] is all zeros, and recompute[a] is false (not true: the first
Thompson draw on a freshly built policy therefore samples with the zero
matrix in place of a Cholesky factor). -/
theorem initialization_invariant (k d : Nat) (l2 alpha : ℚ) (dt : Int)
    (a i j : Nat) (ha : a < k) (hi : i < d) (hj : j < d) :
    ((((StatisticalPolicy k d l2 alpha dt).A.getD a []).getD i []).getD j 0
      = if i = j then l2 else 0) ∧
    ((((StatisticalPolicy k d l2 alpha dt).A_inv.getD a []).getD i []).getD j 0
      = if i = j then 1 / l2 else 0) ∧
    (((StatisticalPolicy k d l2 alpha dt).b.getD i []).getD a 0 = 0) ∧
    (((StatisticalPolicy k d l2 alpha dt).w.getD i []).getD a 0 = 0) ∧
    ((((StatisticalPolicy k d l2 alpha dt).cho.getD a []).getD i []).getD j 0 = 0) ∧
    ((StatisticalPolicy k d l2 alpha dt).recompute.getD a true = false) := by
  have hgA : (StatisticalPolicy k d l2 alpha dt).A.getD a [] = scalMulM l2 (identityM d) := by
    simp [StatisticalPolicy, List.getD_eq_getElem?_getD, List.getElem?_replicate, ha]
  have hgI : (StatisticalPolicy k d l2 alpha dt).A_inv.getD a [] = matDivS (identityM d) l2 := by
    simp [StatisticalPolicy, List.getD_eq_getElem?_getD, List.getElem?_replicate, ha]
  have hgC : (StatisticalPolicy k d l2 alpha dt).cho.getD a [] = zerosM d d := by
    simp [StatisticalPolicy, List.getD_eq_getElem?_getD, List.getElem?_replicate, ha]
  refine ⟨?_, ?_, ?_, ?_, ?_, ?_⟩
  · rw [hgA]
    simp only [scalMulM, identityM, List.getD_eq_getElem?_getD, List.getElem?_map,
      List.getElem?_range, hi, hj, Option.map_some, Option.getD_some, List.map_map,
      Function.comp]
    split <;> rename_i h <;> simp [List.getElem?_range hj, h]
  · rw [hgI]
    simp only [matDivS, identityM, List.getD_eq_getElem?_getD, List.getElem?_map,
      List.getElem?_range, hi, hj, Option.map_some, Option.getD_some, List.map_map,
      Function.comp]
    split <;> rename_i h <;> simp [List.getElem?_range hj, h]
  · simp [StatisticalPolicy, zerosM, List.getD_eq_getElem?_getD, List.getElem?_replicate, ha, hi]
  · simp [StatisticalPolicy, zerosM, List.getD_eq_getElem?_getD, List.getElem?_replicate, ha, hi]
  · rw [hgC]
    simp [zerosM, List.getD_eq_getElem?_getD, List.getElem?_replicate, hi, hj]
  · simp [StatisticalPolicy, List.getD_eq_getElem?_getD, List.getElem?_replicate, ha]

/-- Witness for the amended C6 at k = d = 1, l2 = 2, alpha = 3, UCB. -/
theorem initialization_invariant_witness :
    ((((StatisticalPolicy 1 1 2 3 0).A.getD 0 []).getD 0 []).getD 0 0
      = if 0 = 0 then (2 : ℚ) else 0) ∧
    ((((StatisticalPolicy 1 1 2 3 0).A_inv.getD 0 []).getD 0 []).getD 0 0
      = if 0 = 0 then 1 / (2 : ℚ) else 0) ∧
    (((StatisticalPolicy 1 1 2 3 0).b.getD 0 []).getD 0 0 = 0) ∧
    (((StatisticalPolicy 1 1 2 3 0).w.getD 0 []).getD 0 0 = 0) ∧
    ((((StatisticalPolicy 1 1 2 3 0).cho.getD 0 []).getD 0 []).getD 0 0 = 0) ∧
    ((StatisticalPolicy 1 1 2 3 0).recompute.getD 0 true = false) :=
  initialization_invariant 1 1 2 3 0 0 0 0 (by decide) (by decide) (by decide)

end SPol

namespace SPol

/-! C7, unknown draw type handling. -/

/-- C7 counterexample: constructing with the unrecognized draw_type 2
succeeds (the factory performs no validation and stores the discriminant),
and it is the later draw and probability calls on the successfully
constructed instance that raise the unknown-draw-type error; this refutes
both halves of the claim at a concrete input. -/
theorem unknown_draw_type_per_call_cex :
    (StatisticalPolicy 1 1 1 1 2).draw_type = 2 ∧
    draw (StatisticalPolicy 1 1 1 1 2) [1] (fun q => q) (fun m => m) [[0]]
      = .error .unknownDrawType ∧
    probability (StatisticalPolicy 1 1 1 1 2) [1] 0 (fun q => q) (fun m => m)
      = .error .unknownDrawType :=
  ⟨rfl, rfl, rfl⟩

/-- C7 (amended): construction never validates draw_type (the factory
returns an instance carrying whatever discriminant it was given), and every
draw or probability call on a policy whose discriminant is neither UCB nor
THOMPSON fails with the unknown-draw-type error, raised per call on lines
57 and 93, not at construction time. -/
theorem unknown_draw_type_raises_per_call (k d : Nat) (l2 alpha : ℚ) (dt : Int)
    (st : Policy) (h0 : st.draw_type ≠ TYPE_UCB) (h1 : st.draw_type ≠ TYPE_THOMPSON)
    (x : Vec) (a : Nat) (sq : ℚ → ℚ) (ch : Mat → Mat) (u : Mat) :
    (StatisticalPolicy k d l2 alpha dt).draw_type = dt ∧
    draw st x sq ch u = .error .unknownDrawType ∧
    probability st x a sq ch = .error .unknownDrawType := by
  refine ⟨rfl, ?_, ?_⟩
  · simp [draw, h0, h1]
  · simp [probability, h0, h1]

/-- Witness for the amended C7 at a concrete policy with draw_type 2. -/
theorem unknown_draw_type_raises_per_call_witness :
    (StatisticalPolicy 1 1 1 1 2).draw_type = 2 ∧
    draw (StatisticalPolicy 1 1 1 1 2) [1, 2] (fun q => q) (fun m => m) [[0]]
      = .error .unknownDrawType ∧
    probability (StatisticalPolicy 1 1 1 1 2) [1, 2] 3 (fun q => q) (fun m => m)
      = .error .unknownDrawType :=
  unknown_draw_type_raises_per_call 1 1 1 1 2 (StatisticalPolicy 1 1 1 1 2)
    (by decide) (by decide) [1, 2] 3 (fun q => q) (fun m => m) [[0]]

/-! C1, the Thompson probability query. -/

/-- C1: on every policy with draw_type THOMPSON, a successful probability
call returns no numeric value at all: the branch on lines 101-103 computes
a score expression, discards it, and falls off the end of the function, so
the caller receives Python None instead of the claimed probability in
[0, 1] that the Thompson draw would select the action. -/
theorem thompson_probability_returns_no_value (st : Policy) (x : Vec) (a : Nat)
    (sq : ℚ → ℚ) (ch : Mat → Mat) (res : Option ℚ × Policy)
    (hdt : st.draw_type = TYPE_THOMPSON)
    (h : probability st x a sq ch = .ok res) : res.1 = none := by
  unfold probability at h
  rw [hdt] at h
  simp only [TYPE_UCB, TYPE_THOMPSON] at h
  norm_num at h
  unfold probability_thompson at h
  rw [bindE_ok] at h
  obtain ⟨st1, _, h⟩ := h
  rw [bindE_ok] at h
  obtain ⟨s1, _, h⟩ := h
  rw [bindE_ok] at h
  obtain ⟨bnd, _, h⟩ := h
  rw [bindE_ok] at h
  obtain ⟨u2, _, h⟩ := h
  simp only [pure_eq_ok, Except.ok.injEq] at h
  rw [← h]

/-- Witness for C1 on the freshly constructed one-arm Thompson policy. -/
theorem thompson_probability_returns_no_value_witness :
    probability (StatisticalPolicy 1 1 1 1 1) [1] 0 (fun q => q) (fun m => m)
      = .ok (none, StatisticalPolicy 1 1 1 1 1) ∧
    ((none : Option ℚ), StatisticalPolicy 1 1 1 1 1).1 = none := by
  have h : probability (StatisticalPolicy 1 1 1 1 1) [1] 0 (fun q => q) (fun m => m)
      = .ok (none, StatisticalPolicy 1 1 1 1 1) := by
    norm_num [probability, probability_thompson, update_cholesky, cholStep, bound,
      mapE, foldE, TYPE_UCB, TYPE_THOMPSON, StatisticalPolicy, zerosM, identityM,
      scalMulM, matDivS, getIdx, setIdx, matMul, matAddE, matSubE, matAddS, matDivB,
      vecAddB, assignRow, dotMV, dotVM, dotL, dot0, nCols, getCol, colOf, rowOf,
      sameShape, diagE, scalVec, List.replicate, List.range_succ]
  exact ⟨h, thompson_probability_returns_no_value (StatisticalPolicy 1 1 1 1 1)
    [1] 0 (fun q => q) (fun m => m) (none, StatisticalPolicy 1 1 1 1 1) rfl h⟩

/-! C2 and C4, the shape defect of the default buffers. -/

/-- C2: the end-to-end example of the spec does not run on the source.  With
k = 2, d = 1 the constructor allocates w and b with shape (d, k) = (1, 2)
while update and draw index them by arm; update(x=[1.0], a=0, r=1.0)
broadcasts b[0] to [1, 1] and then fails with a dimension mismatch in
np.dot(A_inv[0], b[0]) (a 1 x 1 matrix against a length-2 vector), and
draw([1.0]) fails the same way in np.dot(w, x), so neither the claimed
b[0] = [1.0], w[0] = [0.5] nor the claimed action 0 is produced. -/
theorem end_to_end_example_crashes :
    update (StatisticalPolicy 2 1 1 1 0) [1] 0 1 = .error .shape ∧
    draw (StatisticalPolicy 2 1 1 1 0) [1] (fun q => q) (fun m => m) [[0, 0]]
      = .error .shape := by
  constructor
  · norm_num [update, StatisticalPolicy, zerosM, identityM, scalMulM, matDivS,
      getIdx, setIdx, matMul, matAddE, matSubE, matAddS, matDivB, vecAddB,
      assignRow, dotMV, dot0, nCols, getCol, colOf, rowOf, sameShape,
      List.replicate, List.range_succ]
  · norm_num [draw, draw_ucb, bound, mapE, TYPE_UCB, StatisticalPolicy, zerosM,
      identityM, scalMulM, matDivS, getIdx, setIdx, matMul, matAddE, matSubE,
      matAddS, matDivB, vecAddB, assignRow, dotMV, dot0, nCols, getCol, colOf,
      rowOf, sameShape, diagE, scalVec, List.replicate, List.range_succ]

/-- C4: update with an in-range arm errors instead of completing.  With
k = 2, d = 1 (both at least 1) and the in-range arm a = 1, the read of
b[1, :] on line 43 is out of bounds because b was allocated with d = 1 rows
(shape (d, k) instead of per-arm (k, d)), so the call raises IndexError
rather than updating arm 1; the claim that update completes without error
for every k, d at least 1 fails on the source. -/
theorem update_in_range_arm_index_error :
    update (StatisticalPolicy 2 1 1 1 0) [1] 1 1 = .error .index := by
  norm_num [update, StatisticalPolicy, zerosM, identityM, scalMulM, matDivS,
    getIdx, setIdx, matMul, matAddE, matSubE, matAddS, matDivB, vecAddB,
    assignRow, dotMV, dot0, nCols, getCol, colOf, rowOf, sameShape,
    List.replicate, List.range_succ]

end SPol

namespace SPol

/-! Helper lemmas for the cache-refresh loop. -/

theorem getIdx_ok {l : List α} {i : Nat} {v : α} :
    getIdx l i = .ok v ↔ l[i]? = some v := by
  unfold getIdx
  cases h : l[i]? <;> simp

theorem setIdx_ok {l : List α} {i : Nat} {v : α} {l' : List α} :
    setIdx l i v = .ok l' ↔ i < l.length ∧ l' = l.set i v := by
  unfold setIdx
  split
  · rename_i h
    simp [h, eq_comm]
  · rename_i h
    simp [h]

theorem framePreserved_refl (s : Policy) : FramePreserved s s :=
  ⟨rfl, rfl, rfl, rfl, rfl, rfl, rfl, rfl, rfl, rfl⟩

theorem framePreserved_trans {s t u : Policy}
    (h1 : FramePreserved s t) (h2 : FramePreserved t u) : FramePreserved s u := by
  obtain ⟨a1, a2, a3, a4, a5, a6, a7, a8, a9, a10⟩ := h1
  obtain ⟨b1, b2, b3, b4, b5, b6, b7, b8, b9, b10⟩ := h2
  exact ⟨b1.trans a1, b2.trans a2, b3.trans a3, b4.trans a4, b5.trans a5,
    b6.trans a6, b7.trans a7, b8.trans a8, b9.trans a9, b10.trans a10⟩

theorem cholStep_frame {ch : Mat → Mat} {s : Policy} {i : Nat} {s1 : Policy}
    (h : cholStep ch s i = .ok s1) :
    FramePreserved s s1 ∧ s1.recompute.length = s.recompute.length ∧
      s1.cho.length = s.cho.length := by
  unfold cholStep at h
  rw [bindE_ok] at h
  obtain ⟨rc, hrc, h⟩ := h
  cases rc with
  | false =>
    simp only [Bool.false_eq_true, if_false, pure_eq_ok, Except.ok.injEq] at h
    subst h
    exact ⟨framePreserved_refl s, rfl, rfl⟩
  | true =>
    simp only [if_true] at h
    rw [bindE_ok] at h
    obtain ⟨Ii, hIi, h⟩ := h
    rw [bindE_ok] at h
    obtain ⟨newCho, hCho, h⟩ := h
    rw [bindE_ok] at h
    obtain ⟨newRec, hRec, h⟩ := h
    simp only [pure_eq_ok, Except.ok.injEq] at h
    rw [setIdx_ok] at hCho hRec
    obtain ⟨hChoLt, hChoEq⟩ := hCho
    obtain ⟨hRecLt, hRecEq⟩ := hRec
    subst h hChoEq hRecEq
    exact ⟨⟨rfl, rfl, rfl, rfl, rfl, rfl, rfl, rfl, rfl, rfl⟩,
      by simp, by simp⟩

theorem foldE_chol_frame (ch : Mat → Mat) (l : List Nat) :
    ∀ s s' : Policy, foldE (cholStep ch) s l = .ok s' →
      FramePreserved s s' ∧ s'.recompute.length = s.recompute.length ∧
        s'.cho.length = s.cho.length := by
  induction l with
  | nil =>
    intro s s' h
    simp only [foldE, Except.ok.injEq] at h
    subst h
    exact ⟨framePreserved_refl s, rfl, rfl⟩
  | cons a l ih =>
    intro s s' h
    simp only [foldE] at h
    rw [bindE_ok] at h
    obtain ⟨s1, h1, h2⟩ := h
    obtain ⟨f1, r1, c1⟩ := cholStep_frame h1
    obtain ⟨f2, r2, c2⟩ := ih s1 s' h2
    exact ⟨framePreserved_trans f1 f2, r2.trans r1, c2.trans c1⟩

theorem update_cholesky_frame {ch : Mat → Mat} {st st' : Policy}
    (h : update_cholesky ch st = .ok st') :
    FramePreserved st st' ∧ st'.recompute.length = st.recompute.length ∧
      st'.cho.length = st.cho.length :=
  foldE_chol_frame ch (List.range st.k) st st' h

/-! C8, which calls mutate the policy state. -/

/-- C8 counterexample: after one update the single arm of a Thompson policy
is dirty; the very next draw call flips recompute[0] from True to False
(and rewrites cho[0]), so draw does not leave every state field unchanged. -/
theorem thompson_draw_mutates_cache_cex :
    (update (StatisticalPolicy 1 1 1 1 1) [1] 0 1).bind
      (fun p1 => (draw p1 [1] (fun q => q) (fun m => m) [[0]]).map
        (fun r => (p1.recompute, r.2.recompute))) = .ok ([true], [false]) := by
  norm_num [update, draw, draw_thompson, update_cholesky, cholStep, mapE, foldE,
    TYPE_UCB, TYPE_THOMPSON, StatisticalPolicy, zerosM, identityM, scalMulM,
    matDivS, getIdx, setIdx, matMul, matAddE, matSubE, matAddS, matDivB, vecAddB,
    assignRow, dotMV, dotVM, dotL, dot0, nCols, getCol, colOf, rowOf, sameShape,
    diagE, scalVec, argmax, argmaxAux, List.replicate, List.range_succ,
    Except.bind, Except.map]

/-- C8 (amended): draw and probability never touch the sufficient
statistics w, b, A, A_inv nor any scalar configuration field; with
draw_type UCB they return the state entirely unchanged; only the Thompson
branches may rewrite the Cholesky cache pair (cho, recompute) through the
lazy refresh, which is the one mutation the claim must except. -/
theorem draw_probability_frame (st : Policy) (x : Vec) (a : Nat)
    (sq : ℚ → ℚ) (ch : Mat → Mat) (u : Mat) :
    (∀ i st', draw st x sq ch u = .ok (i, st') →
      FramePreserved st st' ∧ (st.draw_type = TYPE_UCB → st' = st)) ∧
    (∀ v st', probability st x a sq ch = .ok (v, st') →
      FramePreserved st st' ∧ (st.draw_type = TYPE_UCB → st' = st)) := by
  constructor
  · intro i st' h
    unfold draw at h
    by_cases h0 : st.draw_type = TYPE_UCB
    · rw [if_pos h0] at h
      rw [bindE_ok] at h
      obtain ⟨j, hj, h⟩ := h
      simp only [pure_eq_ok, Except.ok.injEq, Prod.mk.injEq] at h
      exact ⟨h.2 ▸ framePreserved_refl st, fun _ => h.2.symm⟩
    · rw [if_neg h0] at h
      by_cases h1 : st.draw_type = TYPE_THOMPSON
      · rw [if_pos h1] at h
        unfold draw_thompson at h
        rw [bindE_ok] at h
        obtain ⟨st1, hst1, h⟩ := h
        rw [bindE_ok] at h
        obtain ⟨s, hs, h⟩ := h
        simp only [pure_eq_ok, Except.ok.injEq, Prod.mk.injEq] at h
        exact ⟨h.2 ▸ (update_cholesky_frame hst1).1, fun hc => absurd hc h0⟩
      · rw [if_neg h1] at h
        exact absurd h (by simp)
  · intro v st' h
    unfold probability at h
    by_cases h0 : st.draw_type = TYPE_UCB
    · rw [if_pos h0] at h
      rw [bindE_ok] at h
      obtain ⟨q, hq, h⟩ := h
      simp only [pure_eq_ok, Except.ok.injEq, Prod.mk.injEq] at h
      exact ⟨h.2 ▸ framePreserved_refl st, fun _ => h.2.symm⟩
    · rw [if_neg h0] at h
      by_cases h1 : st.draw_type = TYPE_THOMPSON
      · rw [if_pos h1] at h
        unfold probability_thompson at h
        rw [bindE_ok] at h
        obtain ⟨st1, hst1, h⟩ := h
        rw [bindE_ok] at h
        obtain ⟨s1, hs1, h⟩ := h
        rw [bindE_ok] at h
        obtain ⟨bnd, hbnd, h⟩ := h
        rw [bindE_ok] at h
        obtain ⟨u2, hu2, h⟩ := h
        simp only [pure_eq_ok, Except.ok.injEq, Prod.mk.injEq] at h
        exact ⟨h.2 ▸ (update_cholesky_frame hst1).1, fun hc => absurd hc h0⟩
      · rw [if_neg h1] at h
        exact absurd h (by simp)

/-- Witness for the amended C8: a successful Thompson draw on the fresh
one-arm policy, whose cache is clean, preserves the frame. -/
theorem draw_probability_frame_witness :
    FramePreserved (StatisticalPolicy 1 1 1 1 1) (StatisticalPolicy 1 1 1 1 1) := by
  have h : draw (StatisticalPolicy 1 1 1 1 1) [1] (fun q => q) (fun m => m) [[0]]
      = .ok (0, StatisticalPolicy 1 1 1 1 1) := by
    norm_num [draw, draw_thompson, update_cholesky, cholStep, mapE, foldE,
      TYPE_UCB, TYPE_THOMPSON, StatisticalPolicy, zerosM, identityM, scalMulM,
      matDivS, getIdx, setIdx, matMul, matAddE, matSubE, matAddS, matDivB,
      vecAddB, assignRow, dotMV, dotVM, dotL, dot0, nCols, getCol, colOf, rowOf,
      sameShape, diagE, scalVec, argmax, argmaxAux, List.replicate, List.range_succ]
  exact ((draw_probability_frame (StatisticalPolicy 1 1 1 1 1) [1] 0
    (fun q => q) (fun m => m) [[0]]).1 0 (StatisticalPolicy 1 1 1 1 1) h).1

end SPol

namespace SPol

/-! Helper lemmas for C9. -/

theorem update_sets_dirty {st : Policy} {x : Vec} {a : Nat} {r : ℚ} {st1 : Policy}
    (h : update st x a r = .ok st1) :
    st1.recompute[a]? = some true ∧ st1.draw_type = st.draw_type ∧ st1.k = st.k := by
  simp only [update, bindE_ok, pure_eq_ok, Except.ok.injEq] at h
  obtain ⟨Aa, hAa, oX, hoX, Aa2, hAa2, newA, hnewA, ba, hba, ba2, hba2, ba3, hba3,
    newB, hnewB, Ia, hIa, t1, ht1, t2, ht2, num, hnum, t3, ht3, t4, ht4,
    frac, hfrac, Ia2, hIa2, newAinv, hnewAinv, wa, hwa, wa2, hwa2, wa3, hwa3,
    newW, hnewW, newRec, hnewRec, hfin⟩ := h
  subst hfin
  rw [setIdx_ok] at hnewRec
  obtain ⟨hlt, hset⟩ := hnewRec
  subst hset
  exact ⟨by simp [List.getElem?_set_self hlt], rfl, rfl⟩

theorem cholStep_other {ch : Mat → Mat} {s : Policy} {i : Nat} {s1 : Policy} {j : Nat}
    (h : cholStep ch s i = .ok s1) (hne : j ≠ i) :
    s1.recompute[j]? = s.recompute[j]? ∧ s1.cho[j]? = s.cho[j]? := by
  unfold cholStep at h
  rw [bindE_ok] at h
  obtain ⟨rc, hrc, h⟩ := h
  cases rc with
  | false =>
    simp only [Bool.false_eq_true, if_false, pure_eq_ok, Except.ok.injEq] at h
    subst h
    exact ⟨rfl, rfl⟩
  | true =>
    simp only [if_true] at h
    rw [bindE_ok] at h
    obtain ⟨Ii, hIi, h⟩ := h
    rw [bindE_ok] at h
    obtain ⟨newCho, hCho, h⟩ := h
    rw [bindE_ok] at h
    obtain ⟨newRec, hRec, h⟩ := h
    simp only [pure_eq_ok, Except.ok.injEq] at h
    rw [setIdx_ok] at hCho hRec
    subst h
    rw [hCho.2, hRec.2]
    exact ⟨List.getElem?_set_ne (fun he => hne he.symm), List.getElem?_set_ne (fun he => hne he.symm)⟩

theorem cholStep_at {ch : Mat → Mat} {s : Policy} {i : Nat} {s1 : Policy}
    (h : cholStep ch s i = .ok s1) :
    s1.recompute[i]? = some false ∧
      (s.recompute[i]? = some true → s1.cho[i]? = (s.A_inv[i]?).map ch) := by
  unfold cholStep at h
  rw [bindE_ok] at h
  obtain ⟨rc, hrc, h⟩ := h
  rw [getIdx_ok] at hrc
  cases rc with
  | false =>
    simp only [Bool.false_eq_true, if_false, pure_eq_ok, Except.ok.injEq] at h
    subst h
    refine ⟨hrc, fun hd => ?_⟩
    rw [hrc] at hd
    simp at hd
  | true =>
    simp only [if_true] at h
    rw [bindE_ok] at h
    obtain ⟨Ii, hIi, h⟩ := h
    rw [bindE_ok] at h
    obtain ⟨newCho, hCho, h⟩ := h
    rw [bindE_ok] at h
    obtain ⟨newRec, hRec, h⟩ := h
    simp only [pure_eq_ok, Except.ok.injEq] at h
    rw [setIdx_ok] at hCho hRec
    rw [getIdx_ok] at hIi
    subst h
    refine ⟨?_, fun _ => ?_⟩
    · rw [hRec.2]
      simp [List.getElem?_set_self hRec.1]
    · rw [hCho.2]
      simp [List.getElem?_set_self hCho.1, hIi]

theorem foldE_chol_other (ch : Mat → Mat) (l : List Nat) :
    ∀ (s s' : Policy) (j : Nat), j ∉ l → foldE (cholStep ch) s l = .ok s' →
      s'.recompute[j]? = s.recompute[j]? ∧ s'.cho[j]? = s.cho[j]? := by
  induction l with
  | nil =>
    intro s s' j _ h
    simp only [foldE, Except.ok.injEq] at h
    subst h
    exact ⟨rfl, rfl⟩
  | cons a l ih =>
    intro s s' j hj h
    simp only [foldE] at h
    rw [bindE_ok] at h
    obtain ⟨s1, h1, h2⟩ := h
    have hja : j ≠ a := fun he => hj (he ▸ List.mem_cons_self a l)
    have hjl : j ∉ l := fun hm => hj (List.mem_cons_of_mem a hm)
    obtain ⟨r1, c1⟩ := cholStep_other h1 hja
    obtain ⟨r2, c2⟩ := ih s1 s' j hjl h2
    exact ⟨r2.trans r1, c2.trans c1⟩

theorem foldE_chol_mem (ch : Mat → Mat) (l : List Nat) :
    ∀ (s s' : Policy) (j : Nat), j ∈ l → l.Nodup → foldE (cholStep ch) s l = .ok s' →
      s'.recompute[j]? = some false ∧
        (s.recompute[j]? = some true → s'.cho[j]? = (s.A_inv[j]?).map ch) := by
  induction l with
  | nil =>
    intro s s' j hj
    exact absurd hj (List.not_mem_nil j)
  | cons a l ih =>
    intro s s' j hj hnd h
    simp only [foldE] at h
    rw [bindE_ok] at h
    obtain ⟨s1, h1, h2⟩ := h
    rcases List.mem_cons.mp hj with hja | hjl
    · subst hja
      have hnotin : j ∉ l := (List.nodup_cons.mp hnd).1
      obtain ⟨r1, c1⟩ := cholStep_at h1
      obtain ⟨r2, c2⟩ := foldE_chol_other ch l s1 s' j hnotin h2
      exact ⟨r2.trans r1, fun hd => c2.trans (c1 hd)⟩
    · have hja : j ≠ a := by
        intro he
        subst he
        exact (List.nodup_cons.mp hnd).1 hjl
      obtain ⟨r1, c1⟩ := cholStep_other h1 hja
      have hAinv : s1.A_inv = s.A_inv := (cholStep_frame h1).1.2.2.2.2.2.2.2.2.1
      obtain ⟨r2, c2⟩ := ih s1 s' j hjl (List.nodup_cons.mp hnd).2 h2
      refine ⟨r2, fun hd => ?_⟩
      rw [c2 (r1.trans hd), hAinv]

theorem update_cholesky_refreshes {ch : Mat → Mat} {st st' : Policy} {a : Nat}
    (ha : a < st.k) (h : update_cholesky ch st = .ok st') :
    st'.recompute[a]? = some false ∧
      (st.recompute[a]? = some true → st'.cho[a]? = (st.A_inv[a]?).map ch) :=
  foldE_chol_mem ch (List.range st.k) st st' a (List.mem_range.mpr ha)
    (List.nodup_range st.k) h

/-! C9, Thompson cache correctness. -/

/-- C9: after a successful update to an in-range arm a, the dirty flag
recompute[a] is True; the next successful Thompson draw (and likewise a
Thompson probability call) leaves recompute[a] False with cho[a] equal to
the Cholesky factorization ch applied to the current A_inv[a], which the
refresh leaves untouched — so the sampling step never reads a stale factor
for a dirty arm: the refresh on line 76 precedes the sampling loop. -/
theorem thompson_cache_correctness (st st1 : Policy) (x : Vec) (a : Nat) (r : ℚ)
    (ha : a < st1.k) (hup : update st x a r = .ok st1) :
    st1.recompute[a]? = some true ∧
    (∀ xd sq ch u i st2, draw st1 xd sq ch u = .ok (i, st2) →
      st1.draw_type = TYPE_THOMPSON →
      st2.recompute[a]? = some false ∧ st2.cho[a]? = (st1.A_inv[a]?).map ch ∧
        st2.A_inv = st1.A_inv) ∧
    (∀ xd a2 sq ch v st3, probability st1 xd a2 sq ch = .ok (v, st3) →
      st1.draw_type = TYPE_THOMPSON →
      st3.recompute[a]? = some false ∧ st3.cho[a]? = (st1.A_inv[a]?).map ch) := by
  obtain ⟨hdirty, _, _⟩ := update_sets_dirty hup
  refine ⟨hdirty, ?_, ?_⟩
  · intro xd sq ch u i st2 h hdt
    unfold draw at h
    rw [hdt] at h
    simp only [TYPE_UCB, TYPE_THOMPSON] at h
    norm_num at h
    unfold draw_thompson at h
    rw [bindE_ok] at h
    obtain ⟨stc, hstc, h⟩ := h
    rw [bindE_ok] at h
    obtain ⟨s, hs, h⟩ := h
    simp only [pure_eq_ok, Except.ok.injEq, Prod.mk.injEq] at h
    obtain ⟨rfr, rcho⟩ := update_cholesky_refreshes ha hstc
    have hAinv : stc.A_inv = st1.A_inv := (update_cholesky_frame hstc).1.2.2.2.2.2.2.2.2.1
    rw [← h.2]
    exact ⟨rfr, by rw [rcho hdirty], hAinv⟩
  · intro xd a2 sq ch v st3 h hdt
    unfold probability at h
    rw [hdt] at h
    simp only [TYPE_UCB, TYPE_THOMPSON] at h
    norm_num at h
    unfold probability_thompson at h
    rw [bindE_ok] at h
    obtain ⟨stc, hstc, h⟩ := h
    rw [bindE_ok] at h
    obtain ⟨s1, hs1, h⟩ := h
    rw [bindE_ok] at h
    obtain ⟨bnd, hbnd, h⟩ := h
    rw [bindE_ok] at h
    obtain ⟨u2, hu2, h⟩ := h
    simp only [pure_eq_ok, Except.ok.injEq, Prod.mk.injEq] at h
    obtain ⟨rfr, rcho⟩ := update_cholesky_refreshes ha hstc
    rw [← h.2]
    exact ⟨rfr, by rw [rcho hdirty]⟩

/-- Witness for C9: one update then one Thompson draw on the one-arm
policy, with the identity standing for the Cholesky factorization and a
zero noise sample. -/
theorem thompson_cache_correctness_witness :
    (⟨1, 1, 1, 1, 0, [[1/2]], [[1]], [[[2]]], [[[1/2]]], [[[0]]], [true], 1⟩ : Policy).recompute[0]?
      = some true ∧
    (⟨1, 1, 1, 1, 0, [[1/2]], [[1]], [[[2]]], [[[1/2]]], [[[1/2]]], [false], 1⟩ : Policy).recompute[0]?
      = some false ∧
    (⟨1, 1, 1, 1, 0, [[1/2]], [[1]], [[[2]]], [[[1/2]]], [[[1/2]]], [false], 1⟩ : Policy).cho[0]?
      = ((⟨1, 1, 1, 1, 0, [[1/2]], [[1]], [[[2]]], [[[1/2]]], [[[0]]], [true], 1⟩ : Policy).A_inv[0]?).map
          (fun m => m) := by
  have hup : update (StatisticalPolicy 1 1 1 1 1) [1] 0 1
      = .ok ⟨1, 1, 1, 1, 0, [[1/2]], [[1]], [[[2]]], [[[1/2]]], [[[0]]], [true], 1⟩ := by
    norm_num [update, StatisticalPolicy, zerosM, identityM, scalMulM, matDivS,
      getIdx, setIdx, matMul, matAddE, matSubE, matAddS, matDivB, vecAddB,
      assignRow, dotMV, dot0, nCols, getCol, colOf, rowOf, sameShape,
      List.replicate, List.range_succ]
  have hdr : draw (⟨1, 1, 1, 1, 0, [[1/2]], [[1]], [[[2]]], [[[1/2]]], [[[0]]], [true], 1⟩ : Policy)
      [1] (fun q => q) (fun m => m) [[0]]
      = .ok (0, ⟨1, 1, 1, 1, 0, [[1/2]], [[1]], [[[2]]], [[[1/2]]], [[[1/2]]], [false], 1⟩) := by
    norm_num [draw, draw_thompson, update_cholesky, cholStep, mapE, foldE,
      TYPE_UCB, TYPE_THOMPSON, getIdx, setIdx, dotMV, dotL, dot0, vecAddB,
      argmax, argmaxAux, List.range_succ]
  obtain ⟨h1, h2, _⟩ := thompson_cache_correctness (StatisticalPolicy 1 1 1 1 1)
    (⟨1, 1, 1, 1, 0, [[1/2]], [[1]], [[[2]]], [[[1/2]]], [[[0]]], [true], 1⟩ : Policy)
    [1] 0 1 (by norm_num) hup
  obtain ⟨r1, r2, _⟩ := h2 [1] (fun q => q) (fun m => m) [[0]] 0
    (⟨1, 1, 1, 1, 0, [[1/2]], [[1]], [[[2]]], [[[1/2]]], [[[1/2]]], [false], 1⟩ : Policy) hdr rfl
  exact ⟨h1, r1, r2⟩

end SPol

namespace SPol

/-! Helper lemmas for C5. -/

theorem mapE_ok_of {f : α → Except NPError β} {g : α → β} :
    ∀ l : List α, (∀ a ∈ l, f a = .ok (g a)) → mapE f l = .ok (l.map g) := by
  intro l
  induction l with
  | nil => intro _; rfl
  | cons a l ih =>
    intro h
    simp only [mapE, h a (List.mem_cons_self a l), ok_bind,
      ih (fun b hb => h b (List.mem_cons_of_mem a hb)), pure_eq_ok, List.map_cons]

theorem mapE_ok_length {f : α → Except NPError β} :
    ∀ {l : List α} {ys : List β}, mapE f l = .ok ys → ys.length = l.length := by
  intro l
  induction l with
  | nil =>
    intro ys h
    simp only [mapE, Except.ok.injEq] at h
    subst h
    rfl
  | cons a l ih =>
    intro ys h
    simp only [mapE] at h
    rw [bindE_ok] at h
    obtain ⟨b, hb, h⟩ := h
    rw [bindE_ok] at h
    obtain ⟨bs, hbs, h⟩ := h
    simp only [pure_eq_ok, Except.ok.injEq] at h
    subst h
    simp [ih hbs]

theorem argmaxAux_lt :
    ∀ (rest : List ℚ) (ci bi : Nat) (bv : ℚ), bi < ci →
      argmaxAux rest ci bi bv < ci + rest.length := by
  intro rest
  induction rest with
  | nil =>
    intro ci bi bv h
    simpa [argmaxAux] using h
  | cons v r ih =>
    intro ci bi bv h
    simp only [argmaxAux, List.length_cons]
    split
    · have := ih (ci + 1) ci v (Nat.lt_succ_self ci)
      omega
    · have := ih (ci + 1) bi bv (Nat.lt_succ_of_lt h)
      omega

theorem argmax_lt {s : List ℚ} (hs : s ≠ []) : argmax s < s.length := by
  cases s with
  | nil => exact absurd rfl hs
  | cons v rest =>
    have := argmaxAux_lt rest 1 0 v Nat.one_pos
    simp only [argmax, List.length_cons]
    omega

theorem dotMV_ok_length {m : Mat} {v : Vec} {s : Vec}
    (h : dotMV m v = .ok s) : s.length = m.length := by
  unfold dotMV at h
  split at h
  · simp only [Except.ok.injEq] at h
    subst h
    simp
  · simp at h

theorem bound_ok_length {st : Policy} {x : Vec} {sq : ℚ → ℚ} {bnd : Vec}
    (h : bound st x sq = .ok bnd) : bnd.length = st.k := by
  unfold bound at h
  simpa using mapE_ok_length h

theorem vecAddB_eq_len {u v : Vec} (h : u.length = v.length) :
    vecAddB u v = .ok (List.zipWith (fun a b => a + b) u v) := by
  simp [vecAddB, h]

theorem sum_indicator_range_zero (i : Nat) :
    ∀ k : Nat, k ≤ i → ((List.range k).map (fun a => if i = a then (1 : ℚ) else 0)).sum = 0 := by
  intro k
  induction k with
  | zero => intro _; simp
  | succ k ih =>
    intro h
    rw [List.range_succ, List.map_append, List.sum_append]
    have hik : i ≠ k := by omega
    simp [hik, ih (by omega)]

theorem sum_indicator_range {i : Nat} :
    ∀ {k : Nat}, i < k → ((List.range k).map (fun a => if i = a then (1 : ℚ) else 0)).sum = 1 := by
  intro k
  induction k with
  | zero => intro h; omega
  | succ k ih =>
    intro h
    rw [List.range_succ, List.map_append, List.sum_append]
    by_cases hik : i < k
    · have : i ≠ k := by omega
      simp [this, ih hik]
    · have hie : i = k := by omega
      simp [hie, sum_indicator_range_zero k k (Nat.le_refl k)]

/-! C5, UCB-probability consistency. -/

/-- C5 counterexample: on the UCB policy built with k = 2, d = 1 (the
spec's own example configuration) the probability query raises a shape
error for every action instead of returning 1.0 or 0.0, and the total
probability mass over the two actions is an error, not 1.0; the claim as
stated over every UCB policy therefore fails at this input.  (The defect
is the (d, k) allocation of w already exhibited for C2/C4.) -/
theorem ucb_probability_sum_fails_cex :
    probability_ucb (StatisticalPolicy 2 1 1 1 0) [1] 0 (fun q => q) = .error .shape ∧
    ucbProbSum (StatisticalPolicy 2 1 1 1 0) [1] (fun q => q) = .error .shape ∧
    (Except.error .shape : Except NPError ℚ) ≠ .ok 1 ∧
    (Except.error .shape : Except NPError ℚ) ≠ .ok 0 := by
  refine ⟨?_, ?_, by simp, by simp⟩
  · norm_num [probability_ucb, draw_ucb, bound, mapE, StatisticalPolicy, zerosM,
      identityM, scalMulM, matDivS, getIdx, setIdx, matMul, matAddE, matSubE,
      matAddS, matDivB, vecAddB, assignRow, dotMV, dot0, nCols, getCol, colOf,
      rowOf, sameShape, diagE, scalVec, List.replicate, List.range_succ]
  · norm_num [ucbProbSum, probability_ucb, draw_ucb, bound, mapE, StatisticalPolicy,
      zerosM, identityM, scalMulM, matDivS, getIdx, setIdx, matMul, matAddE, matSubE,
      matAddS, matDivB, vecAddB, assignRow, dotMV, dot0, nCols, getCol, colOf,
      rowOf, sameShape, diagE, scalVec, List.replicate, List.range_succ]

/-- C5 (amended): whenever the UCB draw succeeds on a policy whose w has
one row per arm (which the successful draw forces anyway; on the as-built
policy this requires k = d) and k is at least 1, the UCB probability query
is the point mass of the deterministic draw: it returns 1.0 exactly for
the drawn action, 0.0 for every other action, and the probabilities over
all k actions sum to exactly 1.0. -/
theorem ucb_probability_consistency (st : Policy) (x : Vec) (sq : ℚ → ℚ) (i : Nat)
    (hw : st.w.length = st.k) (hk : 0 < st.k) (hdraw : draw_ucb st x sq = .ok i) :
    i < st.k ∧
    (∀ a, probability_ucb st x a sq = .ok (if i = a then 1 else 0)) ∧
    (∀ a, probability_ucb st x a sq = .ok 1 ↔ draw_ucb st x sq = .ok a) ∧
    ucbProbSum st x sq = .ok 1 := by
  have hprob : ∀ a, probability_ucb st x a sq = .ok (if i = a then 1 else 0) := by
    intro a
    unfold probability_ucb
    rw [hdraw]
    simp
  have hik : i < st.k := by
    have h := hdraw
    unfold draw_ucb at h
    rw [bindE_ok] at h
    obtain ⟨s1, hs1, h⟩ := h
    rw [bindE_ok] at h
    obtain ⟨bnd, hbnd, h⟩ := h
    rw [bindE_ok] at h
    obtain ⟨scores, hsc, h⟩ := h
    simp only [pure_eq_ok, Except.ok.injEq] at h
    have hl1 : s1.length = st.k := (dotMV_ok_length hs1).trans hw
    have hl2 : (scalVec st.alpha bnd).length = st.k := by
      simp [scalVec, bound_ok_length hbnd]
    rw [vecAddB_eq_len (hl1.trans hl2.symm)] at hsc
    simp only [Except.ok.injEq] at hsc
    have hlen : scores.length = st.k := by
      rw [← hsc]
      simp [hl1, hl2]
    have hne : scores ≠ [] := by
      intro he
      rw [he] at hlen
      simp at hlen
      omega
    rw [← h, ← hlen]
    exact argmax_lt hne
  refine ⟨hik, hprob, ?_, ?_⟩
  · intro a
    constructor
    · intro h
      rw [hprob a] at h
      simp only [Except.ok.injEq] at h
      by_cases hia : i = a
      · rw [← hia]
        exact hdraw
      · simp [hia] at h
    · intro h
      rw [hdraw] at h
      simp only [Except.ok.injEq] at h
      rw [hprob a]
      simp [h]
  · unfold ucbProbSum
    rw [mapE_ok_of (List.range st.k) (fun a _ => hprob a)]
    simp only [ok_bind, pure_eq_ok, Except.ok.injEq]
    exact sum_indicator_range hik

/-- Witness for the amended C5 on the one-arm UCB policy. -/
theorem ucb_probability_consistency_witness :
    0 < (StatisticalPolicy 1 1 1 1 0).k ∧
    ((0 : Nat) < (StatisticalPolicy 1 1 1 1 0).k ∧
     (∀ a, probability_ucb (StatisticalPolicy 1 1 1 1 0) [1] a (fun q => q)
        = .ok (if 0 = a then 1 else 0)) ∧
     (∀ a, probability_ucb (StatisticalPolicy 1 1 1 1 0) [1] a (fun q => q) = .ok 1 ↔
        draw_ucb (StatisticalPolicy 1 1 1 1 0) [1] (fun q => q) = .ok a) ∧
     ucbProbSum (StatisticalPolicy 1 1 1 1 0) [1] (fun q => q) = .ok 1) := by
  have hdraw : draw_ucb (StatisticalPolicy 1 1 1 1 0) [1] (fun q => q) = .ok 0 := by
    norm_num [draw_ucb, bound, mapE, StatisticalPolicy, zerosM, identityM,
      scalMulM, matDivS, getIdx, setIdx, matMul, vecAddB, dotMV, dot0, nCols,
      getCol, colOf, rowOf, diagE, scalVec, argmax, argmaxAux,
      List.replicate, List.range_succ]
  exact ⟨by norm_num [StatisticalPolicy], ucb_probability_consistency
    (StatisticalPolicy 1 1 1 1 0) [1] (fun q => q) 0
    (by norm_num [StatisticalPolicy, zerosM]) (by norm_num [StatisticalPolicy]) hdraw⟩

end SPol

namespace SPol

section ShermanMorrisonLemmas

open Matrix

variable {n : Type} [Fintype n] [DecidableEq n]

theorem vecMulVec_mulE (x y : n → ℚ) (M : Matrix n n ℚ) :
    vecMulVec x y * M = vecMulVec x (M.vecMul y) := by
  ext i j
  simp only [mul_apply, vecMulVec_apply, vecMul, dotProduct, Finset.mul_sum]
  exact Finset.sum_congr rfl (fun k _ => by ring)

theorem mul_vecMulVecE (M : Matrix n n ℚ) (x y : n → ℚ) :
    M * vecMulVec x y = vecMulVec (M.mulVec x) y := by
  ext i j
  simp only [mul_apply, vecMulVec_apply, mulVec, dotProduct, Finset.sum_mul]
  exact Finset.sum_congr rfl (fun k _ => by ring)

theorem vecMulVec_mul_vecMulVec (x y z w : n → ℚ) :
    vecMulVec x y * vecMulVec z w = (y ⬝ᵥ z) • vecMulVec x w := by
  ext i j
  simp only [mul_apply, vecMulVec_apply, smul_apply, dotProduct, smul_eq_mul,
    Finset.sum_mul]
  exact Finset.sum_congr rfl (fun k _ => by ring)

theorem vecMulVec_mulVecE (x y v : n → ℚ) :
    (vecMulVec x y).mulVec v = (y ⬝ᵥ v) • x := by
  ext i
  simp only [mulVec, vecMulVec_apply, dotProduct, Pi.smul_apply, smul_eq_mul,
    Finset.sum_mul]
  exact Finset.sum_congr rfl (fun k _ => by ring)

theorem vecMulVec_transposeE (x y : n → ℚ) :
    (vecMulVec x y)ᵀ = vecMulVec y x := by
  ext i j
  simp [vecMulVec_apply, transpose_apply, mul_comm]

theorem dot_self_pos {v : n → ℚ} (hv : v ≠ 0) : 0 < v ⬝ᵥ v := by
  rcases lt_or_eq_of_le (Finset.sum_nonneg (fun i _ => mul_self_nonneg (v i))) with h | h
  · exact h
  · exact absurd (dotProduct_self_eq_zero.mp h.symm) hv

theorem transpose_eq_of_right_inv {A B : Matrix n n ℚ} (hA : A.IsSymm)
    (hAB : A * B = 1) : Bᵀ = B := by
  have h1 : Bᵀ * A = 1 := by
    have : (A * B)ᵀ = (1 : Matrix n n ℚ)ᵀ := by rw [hAB]
    rw [transpose_mul, transpose_one, hA.eq] at this
    exact this
  calc Bᵀ = Bᵀ * (A * B) := by rw [hAB, mul_one]
    _ = (Bᵀ * A) * B := by rw [mul_assoc]
    _ = B := by rw [h1, one_mul]

theorem den_pos {A B : Matrix n n ℚ} (x : n → ℚ) (hpd : PDQ A) (hAB : A * B = 1) :
    0 < x ⬝ᵥ B.mulVec x + 1 := by
  by_cases hx : x = 0
  · subst hx
    simp [zero_dotProduct]
  · have hAu : A.mulVec (B.mulVec x) = x := by
      rw [mulVec_mulVec, hAB, one_mulVec]
    have hu : B.mulVec x ≠ 0 := by
      intro h0
      apply hx
      rw [← hAu, h0, mulVec_zero]
    have hval : x ⬝ᵥ B.mulVec x = (B.mulVec x) ⬝ᵥ A.mulVec (B.mulVec x) := by
      rw [hAu, dotProduct_comm]
    have := hpd (B.mulVec x) hu
    rw [← hval] at this
    linarith

theorem sherman_morrison_step {A B : Matrix n n ℚ} (x : n → ℚ) (hAB : A * B = 1)
    (hden : x ⬝ᵥ B.mulVec x + 1 ≠ 0) :
    smUpdateA A x * smUpdateAinv B x = 1 := by
  unfold smUpdateA smUpdateAinv
  set c := x ⬝ᵥ B.mulVec x with hc
  set O := vecMulVec x x with hO
  set t := 1 / (c + 1) with ht
  have hOBO : O * B * O = c • O := by
    rw [hO, vecMulVec_mulE, vecMulVec_mul_vecMulVec, hc, dotProduct_mulVec]
  have hA1 : A * (B * O * B) = O * B := by
    calc A * (B * O * B) = A * B * O * B := by rw [← mul_assoc, ← mul_assoc]
      _ = O * B := by rw [hAB, one_mul]
  have hO1 : O * (B * O * B) = c • (O * B) := by
    calc O * (B * O * B) = O * B * O * B := by rw [← mul_assoc, ← mul_assoc]
      _ = (c • O) * B := by rw [hOBO]
      _ = c • (O * B) := smul_mul_assoc c O B
  have hcoef : (1 : ℚ) - (t + t * c) = 0 := by
    rw [ht]
    field_simp
    ring
  calc (A + O) * (B - t • (B * O * B))
      = A * B + O * B - (t • (A * (B * O * B)) + t • (O * (B * O * B))) := by
        rw [add_mul, mul_sub, mul_sub, mul_smul_comm, mul_smul_comm]
        abel
    _ = 1 + O * B - (t • (O * B) + t • (c • (O * B))) := by rw [hAB, hA1, hO1]
    _ = 1 + O * B - (t + t * c) • (O * B) := by rw [smul_smul, ← add_smul]
    _ = 1 + ((1 : ℚ) - (t + t * c)) • (O * B) := by
        rw [sub_smul, one_smul]
        abel
    _ = 1 := by rw [hcoef, zero_smul, add_zero]

theorem pd_step {A : Matrix n n ℚ} (x : n → ℚ) (hpd : PDQ A) : PDQ (smUpdateA A x) := by
  intro v hv
  unfold smUpdateA
  rw [add_mulVec, dotProduct_add, vecMulVec_mulVecE, dotProduct_smul, smul_eq_mul,
    dotProduct_comm v x]
  have h2 : 0 ≤ x ⬝ᵥ v * (x ⬝ᵥ v) := mul_self_nonneg _
  have h1 := hpd v hv
  linarith

theorem symm_step {A : Matrix n n ℚ} (x : n → ℚ) (hs : A.IsSymm) :
    (smUpdateA A x).IsSymm := by
  unfold smUpdateA Matrix.IsSymm
  rw [transpose_add, hs.eq, vecMulVec_transposeE]

end ShermanMorrisonLemmas

end SPol

namespace SPol

section ShermanMorrisonMain

open Matrix

variable {n : Type} [Fintype n] [DecidableEq n]

theorem foldl_sm_inv :
    ∀ (xs : List (n → ℚ)) (A B : Matrix n n ℚ), A.IsSymm → PDQ A → A * B = 1 →
      ((xs.foldl (fun p x => (smUpdateA p.1 x, smUpdateAinv p.2 x)) (A, B)).1.IsSymm ∧
        PDQ (xs.foldl (fun p x => (smUpdateA p.1 x, smUpdateAinv p.2 x)) (A, B)).1 ∧
        (xs.foldl (fun p x => (smUpdateA p.1 x, smUpdateAinv p.2 x)) (A, B)).1 *
          (xs.foldl (fun p x => (smUpdateA p.1 x, smUpdateAinv p.2 x)) (A, B)).2 = 1) := by
  intro xs
  induction xs with
  | nil =>
    intro A B hs hpd hAB
    exact ⟨hs, hpd, hAB⟩
  | cons x xs ih =>
    intro A B hs hpd hAB
    simp only [List.foldl_cons]
    exact ih (smUpdateA A x) (smUpdateAinv B x) (symm_step x hs) (pd_step x hpd)
      (sherman_morrison_step x hAB (ne_of_gt (den_pos x hpd hAB)))

theorem smRun_inv (l2 : ℚ) (hl2 : 0 < l2) (xs : List (n → ℚ)) :
    (smRun l2 xs).1.IsSymm ∧ PDQ (smRun l2 xs).1 ∧
      (smRun l2 xs).1 * (smRun l2 xs).2 = 1 := by
  unfold smRun
  apply foldl_sm_inv
  · unfold Matrix.IsSymm
    rw [transpose_smul, transpose_one]
  · intro v hv
    rw [smul_mulVec_assoc, one_mulVec, dotProduct_smul, smul_eq_mul]
    exact mul_pos hl2 (dot_self_pos hv)
  · rw [smul_mul_assoc, mul_smul_comm, smul_smul, mul_one,
      mul_inv_cancel₀ (ne_of_gt hl2), one_smul]

/-- C3: for every positive regularizer l2 and every finite sequence of
per-arm updates, the incrementally maintained inverse (folding the
Sherman-Morrison step of lines 44-46) is exactly the two-sided matrix
inverse of the accumulated second-moment matrix (folding the rank-1
accumulation of line 42), in exact arithmetic. -/
theorem sherman_morrison_equivalence (l2 : ℚ) (hl2 : 0 < l2) (xs : List (n → ℚ)) :
    (smRun l2 xs).1 * (smRun l2 xs).2 = 1 ∧
    (smRun l2 xs).2 * (smRun l2 xs).1 = 1 ∧
    (smRun l2 xs).2 = (smRun l2 xs).1⁻¹ := by
  obtain ⟨_, _, hAB⟩ := smRun_inv l2 hl2 xs
  exact ⟨hAB, Matrix.mul_eq_one_comm.mp hAB, (Matrix.inv_eq_right_inv hAB).symm⟩

/-- Witness for C3: dimension 1, l2 = 1, a single update with context 2;
the fold gives A = 5 and A_inv = 1/5. -/
theorem sherman_morrison_equivalence_witness :
    (smRun 1 [(fun _ => 2 : Fin 1 → ℚ)]).1 * (smRun 1 [(fun _ => 2 : Fin 1 → ℚ)]).2 = 1 ∧
    (smRun 1 [(fun _ => 2 : Fin 1 → ℚ)]).2 * (smRun 1 [(fun _ => 2 : Fin 1 → ℚ)]).1 = 1 ∧
    (smRun 1 [(fun _ => 2 : Fin 1 → ℚ)]).2 = (smRun 1 [(fun _ => 2 : Fin 1 → ℚ)]).1⁻¹ :=
  sherman_morrison_equivalence 1 (by norm_num) [(fun _ => 2 : Fin 1 → ℚ)]

end ShermanMorrisonMain

end SPol
